import Mathlib

/-!
Verification of the exact-rational continued-fraction square-root program
(`sqrt.py`).  The program is Python 2: `/` and `%` on integers are flooring
division and flooring remainder, which correspond to `Int.fdiv` and
`Int.fmod`.  Python's unbounded integers are modelled by `ℤ`.

The seeding `a = [int(floor(sqrt(n)))]` and the fast-path test
`sqrt(n) == a[0]` go through IEEE-754 doubles.  The development models the
function twice:

* `precSqrt` seeds with the exact integer square root (`isqrtLin`) and the
  exact perfect-square test `a0 * a0 = n` — the seeding the spec itself
  prescribes.  It agrees with the source wherever the float pipeline is
  exact, in particular at every concrete radicand evaluated below.
* `precSqrtF` models the source's float pipeline itself: `float(n)` rounds
  the integer to 53 significant bits, half to even, and raises
  `OverflowError` from `2^1024` on (`pyFloatOfNat`); `sqrt` then takes the
  correctly rounded double square root, kept exact as `m / 2^t`
  (`pySqrtParts`).  For roots beyond `2^53` the two models differ: the
  float path can return the wrong root for a perfect square, take the
  integral fast path on a non-square without running the loop, or raise —
  behaviours `precSqrtF` reproduces exactly.
-/

/-- Exact integer square root by linear search: the seeding value the
spec prescribes for `a[0]`.  (The source computes `a[0]` through floats;
that pipeline is modelled separately by `pyFloatOfNat` and `pySqrtParts`,
and the two agree whenever the float computation is exact.)
`isqrtGo n fuel k` increments `k` while `(k+1)^2 ≤ n`. -/
def isqrtGo (n : ℕ) : ℕ → ℕ → ℕ
  | 0, k => k
  | fuel+1, k => if (k+1)*(k+1) ≤ n then isqrtGo n fuel (k+1) else k

/-- Exact integer square root (floor). -/
def isqrtLin (n : ℕ) : ℕ := isqrtGo n n 0

/-- Model of the source's `gcd(m, n)` (Euclid with Python `%`, whose result
takes the sign of the divisor).  Fuel-based so that it reduces in the
kernel; `pygcd` supplies sufficient fuel. -/
def pygcdGo : ℕ → ℤ → ℤ → ℤ
  | 0, m, _ => m
  | fuel+1, m, n => if n = 0 then m else pygcdGo fuel n (Int.fmod m n)

/-- Model of the source's `gcd(m, n)`:  `while n != 0: r = m % n; m = n; n = r`. -/
def pygcd (m n : ℤ) : ℤ := pygcdGo (n.natAbs + 1) m n

/-- Model of the source's `lcm(a, b) = abs(a * b) / gcd(a, b)` (Python 2
integer `/` is flooring). -/
def pylcm (a b : ℤ) : ℤ := |a * b|.fdiv (pygcd a b)

/-- Model of the source's `Ratio` class: a numerator/denominator pair of
unbounded integers. -/
structure Frac where
  num : ℤ
  den : ℤ
  deriving DecidableEq, Repr

/-- Model of `Ratio.__add__`: `lcd = lcm(self.den, other.den)`, numerator
`self.num * lcd / self.den + other.num * lcd / other.den`, denominator `lcd`. -/
def Frac.add (s o : Frac) : Frac :=
  let lcd := pylcm s.den o.den
  ⟨(s.num * lcd).fdiv s.den + (o.num * lcd).fdiv o.den, lcd⟩

/-- Model of `Ratio.__sub__`: `self + Ratio(-other.num, other.den)`. -/
def Frac.sub (s o : Frac) : Frac := s.add ⟨-o.num, o.den⟩

/-- Model of `Ratio.__eq__`: compare `self.num * lcd / self.den` with
`other.num * lcd / other.den`. -/
def Frac.beq (s o : Frac) : Bool :=
  let lcd := pylcm s.den o.den
  (s.num * lcd).fdiv s.den == (o.num * lcd).fdiv o.den

/-- Model of `Ratio.__lt__`: compare `self.num * lcd / self.den` with
`other.num * lcd / other.den` by `<`. -/
def Frac.blt (s o : Frac) : Bool :=
  let lcd := pylcm s.den o.den
  decide ((s.num * lcd).fdiv s.den < (o.num * lcd).fdiv o.den)

/-- Model of `Ratio.__abs__`: `Ratio(abs(num), abs(den))`. -/
def Frac.abs (s : Frac) : Frac := ⟨|s.num|, |s.den|⟩

/-- Model of `Ratio.rec` (in-place reciprocal): swaps the two fields.  In
the source this mutates `self`; here the mutation is modelled by rebinding.
The name `rec` itself is taken by the structure recursor. -/
def Frac.recip (s : Frac) : Frac := ⟨s.den, s.num⟩

/-- Rational value denoted by a `Frac`. -/
def Frac.val (s : Frac) : ℚ := (s.num : ℚ) / (s.den : ℚ)

/-- Model of `int('1' + '0' * k)`. -/
def tenPow (k : ℕ) : ℤ := 10 ^ k

/-- One step of the convergent fold: `c.rec(); c += Ratio(x)`. -/
def foldStep (c : Frac) (x : ℤ) : Frac := c.recip.add ⟨x, 1⟩

/-- The loop `for i in reversed(range(len(a) - 1)): c.rec(); c += Ratio(a[i])`.
The list argument holds the partial quotients still to be folded, most
recent first (the source stores them oldest first and walks the indices
backwards; this list is that traversal order). -/
def convFold : Frac → List ℤ → Frac
  | c, [] => c
  | c, x :: t => convFold (foldStep c x) t

/-- The convergent computation of one round: `c = Ratio(a[-1])`, then fold
the remaining entries.  `rl` holds the partial quotients most recent
first, so `rl.headI` is the source's `a[-1]`. -/
def convergent (rl : List ℤ) : Frac := convFold ⟨rl.headI, 1⟩ rl.tail

/-- Failure conditions.  `invalidRadicand` models the `ValueError` raised
by `math.sqrt` on a negative argument; `overflowError` models the
`OverflowError` raised when the integer argument is too large to convert
to a double. -/
inductive PyErr where
  | invalidRadicand
  | overflowError
  deriving DecidableEq, Repr

/-- The `while True` loop of `precSqrt`, fuelled ( `none` means the fuel ran
out, which never happens for enough fuel).  State: `m`, `d`, the list of
partial quotients (most recent first; `rl.headI` is `a[-1]`, the fixed
`a0` parameter is the source's `a[0]`), and the previous convergent `pc`.
Each round updates `m` and `d`, appends a partial quotient, recomputes the
convergent `c`, and stops when `abs(c - pc) < Ratio(1, T10)`; otherwise it
saves `pc = Ratio(0); pc.num = c.num; pc.den = c.den` and continues. -/
def loopGo (n a0 T10 : ℤ) : ℕ → ℤ → ℤ → List ℤ → Option Frac → Option Frac
  | 0, _, _, _, _ => none
  | fuel+1, m, d, rl, pc =>
    let m2 := d * rl.headI - m
    let d2 := (n - m2 ^ 2).fdiv d
    let rl2 := ((a0 + m2).fdiv d2) :: rl
    let c := convergent rl2
    match pc with
    | some pcv =>
      if ((c.sub pcv).abs.blt ⟨1, T10⟩) then some c
      else loopGo n a0 T10 fuel m2 d2 rl2 (some ⟨c.num, c.den⟩)
    | none => loopGo n a0 T10 fuel m2 d2 rl2 (some ⟨c.num, c.den⟩)

/-- Python slice `s[:-dig]` for `dig : ℕ` (for `dig = 0` this is `s[:0] = ""`,
matching Python where `-0 == 0`). -/
def pySliceInit (s : String) (dig : ℕ) : String :=
  if dig = 0 then "" else String.mk (s.data.take (s.data.length - dig))

/-- Python slice `s[-dig:]` for `dig : ℕ` (for `dig = 0` this is `s[0:] = s`). -/
def pySliceTail (s : String) (dig : ℕ) : String :=
  if dig = 0 then s else String.mk (s.data.drop (s.data.length - dig))

/-- The rendering step: `s = str(c.num * int('1' + '0'*dig) / c.den)` followed
by `return s[:-dig] + '.' + s[-dig:]`. -/
def renderDec (c : Frac) (dig : ℕ) : String :=
  let s := toString ((c.num * tenPow dig).fdiv c.den)
  pySliceInit s dig ++ "." ++ pySliceTail s dig

/-- Model of `precSqrt(n, dig)` from `sqrt.py` (lines 124-156), fuelled.
`some (Except.ok s)` models returning the string `s`; `some (Except.error e)`
models raising; `none` means the fuel bound was hit. -/
def precSqrt (n : ℤ) (dig : ℕ) (fuel : ℕ) : Option (Except PyErr String) :=
  if n < 0 then some (Except.error PyErr.invalidRadicand)
  else
    let a0 : ℤ := (isqrtLin n.toNat : ℤ)
    if a0 * a0 = n then some (Except.ok (toString a0))
    else
      match loopGo n a0 (tenPow (dig + 1)) fuel 0 1 [a0] none with
      | none => none
      | some c => some (Except.ok (renderDec c dig))

/-- Model of the validation in `main()` (lines 163-165): the surrounding
I/O loop rejects a requested precision below 1 and re-prompts. -/
def mainRejectsPrecision (dig : ℤ) : Bool := decide (dig < 1)

/-- First `k` characters of a string (for statements about prefixes). -/
def strTake (s : String) (k : ℕ) : String := String.mk (s.data.take k)

/-- The fractional digits of a rendered result: everything after the first
decimal point. -/
def fracDigits (s : String) : List Char := (s.data.dropWhile (fun c => c ≠ '.')).tail

/-- One fuelled Newton (Heron) step for the integer square root: from a
guess `g ≥ 1` move to `(g + n / g) / 2` while that strictly decreases. -/
def nsqrtIter : ℕ → ℕ → ℕ → ℕ
  | 0, _, g => g
  | fuel+1, n, g =>
    if (g + n / g) / 2 < g then nsqrtIter fuel n ((g + n / g) / 2) else g

/-- Fast exact integer square root (Newton iteration); unlike `isqrtLin`
it evaluates in the kernel on numbers the size of a double.  `nsqrt_eq`
proves it equal to `Nat.sqrt`. -/
def nsqrt (n : ℕ) : ℕ := if n ≤ 1 then n else nsqrtIter n n (n / 2 + 1)

/-- Floor base-two logarithm of `n ≥ 1`, fuelled: `bitLen n n`. -/
def bitLen : ℕ → ℕ → ℕ
  | 0, _ => 0
  | fuel+1, n => if n ≤ 1 then 0 else bitLen fuel (n / 2) + 1

/-- CPython conversion of a non-negative integer to a double
(`PyLong_AsDouble`, reached from `math.sqrt(n)`): the value is rounded to
53 significant bits, half to even; if the rounded value reaches `2^1024`
the conversion raises `OverflowError` (`none`).  Every double produced
this way is an integer, so it is returned as the exact natural number it
denotes. -/
def pyFloatOfNat (n : ℕ) : Option ℕ :=
  if n < 2 ^ 53 then some n
  else
    let sh := bitLen n n - 52
    let q := n / 2 ^ sh
    let r := n % 2 ^ sh
    let q2 := if 2 ^ (sh - 1) < r ∨ (r = 2 ^ (sh - 1) ∧ q % 2 = 1) then q + 1 else q
    if q2 * 2 ^ sh < 2 ^ 1024 then some (q2 * 2 ^ sh) else none

/-- Correctly rounded IEEE-754 double square root of the integral double
`y`, represented exactly: the result denotes `m / 2^t`.  `√y` lies in the
binade `[2^e, 2^(e+1)]` with `e = ⌊log2 ⌊√y⌋⌋`; the doubles there are the
multiples of `2^(e-52)`, and rounding to nearest, ties to even, picks
between the two enclosing multiples by comparing `4*y` with the squared
midpoint.  For `e ≥ 52` the grid step is an integer (`t = 0`); otherwise
`t = 52 - e` and the grid is refined by scaling `y` by `4^t`. -/
def pySqrtParts (y : ℕ) : ℕ × ℕ :=
  if y = 0 then (0, 0)
  else
    let s := nsqrt y
    let e := bitLen s s
    if 52 ≤ e then
      let u := e - 52
      let m0 := s / 2 ^ u
      let c := ((2 * m0 + 1) * 2 ^ u) ^ 2
      let m := if 4 * y < c then m0
               else if c < 4 * y then m0 + 1
               else if m0 % 2 = 0 then m0 else m0 + 1
      (m * 2 ^ u, 0)
    else
      let t := 52 - e
      let X := y * 4 ^ t
      let m0 := nsqrt X
      let c := (2 * m0 + 1) ^ 2
      let m := if 4 * X < c then m0
               else if c < 4 * X then m0 + 1
               else if m0 % 2 = 0 then m0 else m0 + 1
      (m, t)

/-- Model of `precSqrt(n, dig)` with the floating-point seeding of the
source modelled exactly.  `sqrt(n)` on a Python `int` first converts `n`
to a double — `pyFloatOfNat`, raising `OverflowError` for huge arguments —
then raises `ValueError` on a negative argument, and otherwise yields the
correctly rounded double square root, the exact value `m / 2^t` of
`pySqrtParts`.  The source's `a[0] = int(floor(sqrt(n)))` is that value
rounded down, and its fast-path test `sqrt(n) == a[0]` holds exactly when
the double is integral (CPython compares a float and an int exactly).
The loop is `loopGo`, exactly as in `precSqrt`. -/
def precSqrtF (n : ℤ) (dig : ℕ) (fuel : ℕ) : Option (Except PyErr String) :=
  match pyFloatOfNat n.natAbs with
  | none => some (Except.error PyErr.overflowError)
  | some y =>
    if n < 0 then some (Except.error PyErr.invalidRadicand)
    else
      let p := pySqrtParts y
      let a0 : ℤ := ((p.1 / 2 ^ p.2 : ℕ) : ℤ)
      if p.1 % 2 ^ p.2 = 0 then some (Except.ok (toString a0))
      else
        match loopGo n a0 (tenPow (dig + 1)) fuel 0 1 [a0] none with
        | none => none
        | some c => some (Except.ok (renderDec c dig))

/-- Numerator of the convergent fold, stripped of the `Frac` bookkeeping:
the fold `(u, v) ↦ (x*u + v, u)` over the remaining partial quotients. -/
def kfoldN : List ℤ → ℤ → ℤ → ℤ
  | [], u, _ => u
  | x :: t, u, v => kfoldN t (x * u + v) u

/-- Denominator of the convergent fold, see `kfoldN`. -/
def kfoldD : List ℤ → ℤ → ℤ → ℤ
  | [], _, v => v
  | x :: t, u, v => kfoldD t (x * u + v) u

/-- One round of the `(m, d)` update of the continued-fraction loop:
`m = d*a[-1] - m; d = (n - m**2) / d`, where `a[-1] = (a0 + m) / d` is the
most recently appended partial quotient. -/
def cfStep (n a0 : ℤ) (s : ℤ × ℤ) : ℤ × ℤ :=
  let m2 := s.2 * ((a0 + s.1).fdiv s.2) - s.1
  (m2, (n - m2 ^ 2).fdiv s.2)

/-- The `(m, d)` state before round `k+1`; `cfState n a0 0 = (0, 1)`. -/
def cfState (n a0 : ℤ) : ℕ → ℤ × ℤ
  | 0 => (0, 1)
  | k+1 => cfStep n a0 (cfState n a0 k)

/-- The partial quotient available at state `k` (the source's `a[-1]` when
the state is `cfState k`); `aSeq 0 = a0`. -/
def aSeq (n a0 : ℤ) (k : ℕ) : ℤ := (a0 + (cfState n a0 k).1).fdiv (cfState n a0 k).2

/-- The list of partial quotients after `k` rounds, most recent first. -/
def rlSeq (n a0 : ℤ) : ℕ → List ℤ
  | 0 => [a0]
  | k+1 => aSeq n a0 (k+1) :: rlSeq n a0 k

/-- Convergent numerators: `psSeq (k+1)` is the numerator of the `k`-th
convergent, with the standard seed `psSeq 0 = 1`. -/
def psSeq (n a0 : ℤ) : ℕ → ℤ
  | 0 => 1
  | 1 => a0
  | k+2 => aSeq n a0 (k+1) * psSeq n a0 (k+1) + psSeq n a0 k

/-- Convergent denominators, seeded `qsSeq 0 = 0`, `qsSeq 1 = 1`. -/
def qsSeq (n a0 : ℤ) : ℕ → ℤ
  | 0 => 0
  | 1 => 1
  | k+2 => aSeq n a0 (k+1) * qsSeq n a0 (k+1) + qsSeq n a0 k

/-- The reduced-surd invariant of the `(m, d)` iteration state for a
non-square radicand `n`: both are positive, `d` divides `n - m^2`, and
`(√n + m)/d > 1 > 0 > (m - √n)/d > -1`, written without square roots. -/
def Rinv (n m d : ℤ) : Prop :=
  1 ≤ d ∧ d ∣ (n - m ^ 2) ∧ 1 ≤ m ∧ m ^ 2 < n ∧ n < (m + d) ^ 2 ∧
    (d ≤ m ∨ (d - m) ^ 2 < n)

/-- Heap for the object-identity model of the snapshot code: cell `i` holds
the `num`/`den` fields of the `Ratio` object at address `i`. -/
abbrev Heap := List (ℤ × ℤ)

/-- Read the fields of the object at address `a`. -/
def hget (h : Heap) (a : ℕ) : ℤ × ℤ := h.getD a (0, 0)

/-- Field-level version of `Ratio.__add__` for the heap model. -/
def addVals (x y : ℤ × ℤ) : ℤ × ℤ :=
  let lcd := pylcm x.2 y.2
  ((x.1 * lcd).fdiv x.2 + (y.1 * lcd).fdiv y.2, lcd)

/-- One step `c.rec(); c += Ratio(x)` in the heap model: `rec` mutates the
cell of `c` in place; `+=` reads the mutated cell, allocates a fresh result
object, and rebinds `c` to it. -/
def foldStepH (h : Heap) (ca : ℕ) (x : ℤ) : Heap × ℕ :=
  let cv := hget h ca
  let h1 := h.set ca (cv.2, cv.1)
  (h1 ++ [addVals (hget h1 ca) (x, 1)], h1.length)

/-- The convergent fold in the heap model, returning the final heap and the
address `c` is bound to. -/
def convFoldH : Heap → ℕ → List ℤ → Heap × ℕ
  | h, ca, [] => (h, ca)
  | h, ca, x :: t => convFoldH (foldStepH h ca x).1 (foldStepH h ca x).2 t

/-! ### Flooring division and remainder: helper facts -/

/-- Python `%` with a negative divisor lands in `(b, 0]`. -/
theorem fmod_neg_bounds (a : ℤ) {b : ℤ} (hb : b < 0) :
    b < a.fmod b ∧ a.fmod b ≤ 0 := by
  obtain ⟨k, rfl⟩ : ∃ k : ℕ, b = Int.negSucc k := by
    rcases b with p | k
    · exact absurd hb (by rw [Int.ofNat_eq_natCast]; omega)
    · exact ⟨k, rfl⟩
  rcases a with m | m
  · rcases m with _ | m
    · exact ⟨hb, le_refl 0⟩
    · have h1 : Int.fmod (Int.ofNat (m+1)) (Int.negSucc k) =
        Int.subNatNat (m % (k+1)) k := rfl
      have h2 := Nat.mod_lt m (show 0 < k + 1 by omega)
      rw [h1, Int.subNatNat_eq_coe, Int.negSucc_eq]
      omega
  · have h1 : Int.fmod (Int.negSucc m) (Int.negSucc k) =
      -Int.ofNat ((m+1) % (k+1)) := rfl
    have h2 := Nat.mod_lt (m+1) (show 0 < k + 1 by omega)
    rw [h1, Int.negSucc_eq, Int.ofNat_eq_natCast]
    omega

/-- The absolute value of `Int.fmod m n` decreases below that of `n`. -/
theorem fmod_natAbs_lt (m : ℤ) {n : ℤ} (hn : n ≠ 0) :
    (Int.fmod m n).natAbs < n.natAbs := by
  rcases lt_trichotomy n 0 with h | h | h
  · have := fmod_neg_bounds m h
    omega
  · exact absurd h hn
  · have h1 := Int.fmod_nonneg' m h
    have h2 := Int.fmod_lt_of_pos m h
    omega

/-- Bounds characterizing flooring division by a positive divisor. -/
theorem fdiv_bounds (x : ℤ) {d : ℤ} (hd : 0 < d) :
    d * (x.fdiv d) ≤ x ∧ x < d * (x.fdiv d) + d := by
  have h1 := Int.fdiv_add_fmod x d
  have h2 := Int.fmod_nonneg' x hd
  have h3 := Int.fmod_lt_of_pos x hd
  omega

/-- Exact flooring division: if `b ∣ a` then `b * (a.fdiv b) = a`. -/
theorem fdiv_exact {a b : ℤ} (h : b ∣ a) (hb : b ≠ 0) : b * (a.fdiv b) = a := by
  obtain ⟨c, rfl⟩ := h
  rw [Int.mul_fdiv_cancel_left c hb]

/-! ### Properties of the Python `gcd` and `lcm` -/

/-- The fuel in `pygcdGo` is irrelevant once it exceeds `n.natAbs`. -/
theorem pygcdGo_fuel : ∀ (f g : ℕ) (m n : ℤ), n.natAbs < f → n.natAbs < g →
    pygcdGo f m n = pygcdGo g m n := by
  intro f
  induction f with
  | zero => intro g m n h; omega
  | succ f ih =>
    intro g m n hf hg
    rcases g with _ | g
    · omega
    · by_cases hn : n = 0
      · simp [pygcdGo, hn]
      · have hlt := fmod_natAbs_lt m hn
        simp only [pygcdGo, hn, if_false]
        exact ih (g) n (Int.fmod m n) (by omega) (by omega)

/-- Recurrence for `pygcd`, mirroring one iteration of the source loop. -/
theorem pygcd_rec (m n : ℤ) :
    pygcd m n = if n = 0 then m else pygcd n (Int.fmod m n) := by
  by_cases hn : n = 0
  · simp [pygcd, pygcdGo, hn]
  · have hlt := fmod_natAbs_lt m hn
    simp only [pygcd, hn, if_false]
    have h1 : pygcdGo (n.natAbs + 1) m n = pygcdGo (n.natAbs) n (Int.fmod m n) := by
      simp [pygcdGo, hn]
    rw [h1]
    exact pygcdGo_fuel _ _ _ _ (by omega) (by omega)

/-- Main properties of the source's `gcd` on a nonzero second argument: it
divides both arguments and its sign is the sign of the second argument. -/
theorem pygcd_props : ∀ (N : ℕ) (m n : ℤ), n.natAbs ≤ N → n ≠ 0 →
    pygcd m n ∣ m ∧ pygcd m n ∣ n ∧ (0 < n → 0 < pygcd m n) ∧
      (n < 0 → pygcd m n < 0) := by
  intro N
  induction N with
  | zero => intro m n h hn; omega
  | succ N ih =>
    intro m n hN hn
    rw [pygcd_rec]
    simp only [hn, if_false]
    by_cases hr : Int.fmod m n = 0
    · have hdvd : n ∣ m := ⟨m.fdiv n, by have := Int.fdiv_add_fmod m n; omega⟩
      rw [pygcd_rec]
      simp only [hr, if_pos rfl]
      exact ⟨hdvd, dvd_refl n, fun h => h, fun h => h⟩
    · have hlt := fmod_natAbs_lt m hn
      obtain ⟨d1, d2, s1, s2⟩ := ih n (Int.fmod m n) (by omega) hr
      have hm : m = n * (m.fdiv n) + Int.fmod m n := by
        have := Int.fdiv_add_fmod m n; omega
      refine ⟨?_, d1, ?_, ?_⟩
      · have hd : pygcd n (Int.fmod m n) ∣ n * (m.fdiv n) + Int.fmod m n :=
          dvd_add (Dvd.dvd.mul_right d1 _) d2
        rwa [← hm] at hd
      · intro hpos
        have h1 := Int.fmod_nonneg' m hpos
        exact s1 (lt_of_le_of_ne h1 (Ne.symm hr))
      · intro hneg
        have h1 := (fmod_neg_bounds m hneg).2
        exact s2 (lt_of_le_of_ne h1 hr)

/-- Convenient form of `pygcd_props`. -/
theorem pygcd_facts (m : ℤ) {n : ℤ} (hn : n ≠ 0) :
    pygcd m n ∣ m ∧ pygcd m n ∣ n ∧ (0 < n → 0 < pygcd m n) ∧
      (n < 0 → pygcd m n < 0) :=
  pygcd_props n.natAbs m n (le_refl _) hn

/-- The source's `gcd` is nonzero on a nonzero second argument. -/
theorem pygcd_ne_zero (m : ℤ) {n : ℤ} (hn : n ≠ 0) : pygcd m n ≠ 0 := by
  obtain ⟨-, -, h1, h2⟩ := pygcd_facts m hn
  rcases lt_trichotomy n 0 with h | h | h
  · exact ne_of_lt (h2 h)
  · exact absurd h hn
  · exact ne_of_gt (h1 h)

/-- Properties of the source's `lcm` on nonzero arguments: it is a nonzero
common multiple whose sign is the sign of the second argument. -/
theorem pylcm_spec {a b : ℤ} (ha : a ≠ 0) (hb : b ≠ 0) :
    a ∣ pylcm a b ∧ b ∣ pylcm a b ∧ pylcm a b ≠ 0 ∧ (0 < pylcm a b ↔ 0 < b) := by
  obtain ⟨g1, g2, s1, s2⟩ := pygcd_facts a hb
  have hgne : pygcd a b ≠ 0 := pygcd_ne_zero a hb
  have habs : pygcd a b ∣ |a * b| := (dvd_abs _ _).mpr (g1.mul_right b)
  have hexact : pygcd a b * pylcm a b = |a * b| := fdiv_exact habs hgne
  have habne : |a * b| ≠ 0 := by
    have : a * b ≠ 0 := mul_ne_zero ha hb
    simpa using this
  obtain ⟨a2, ha2⟩ := g1
  obtain ⟨b2, hb2⟩ := g2
  have hcases : pygcd a b * pylcm a b = a * b ∨ pygcd a b * pylcm a b = -(a * b) := by
    rcases abs_cases (a * b) with ⟨h, -⟩ | ⟨h, -⟩
    · exact Or.inl (by rw [hexact, h])
    · exact Or.inr (by rw [hexact, h])
  have hA : a ∣ pylcm a b := by
    rcases hcases with h | h
    · refine ⟨b2, mul_left_cancel₀ hgne ?_⟩
      rw [h]
      nth_rewrite 1 [hb2]
      ring
    · refine ⟨-b2, mul_left_cancel₀ hgne ?_⟩
      rw [h]
      nth_rewrite 1 [hb2]
      ring
  have hB : b ∣ pylcm a b := by
    rcases hcases with h | h
    · refine ⟨a2, mul_left_cancel₀ hgne ?_⟩
      rw [h]
      nth_rewrite 1 [ha2]
      ring
    · refine ⟨-a2, mul_left_cancel₀ hgne ?_⟩
      rw [h]
      nth_rewrite 1 [ha2]
      ring
  have hLne : pylcm a b ≠ 0 := by
    intro h0
    rw [h0, mul_zero] at hexact
    exact habne hexact.symm
  refine ⟨hA, hB, hLne, ?_⟩
  have habspos : 0 < |a * b| := lt_of_le_of_ne (abs_nonneg _) (Ne.symm habne)
  have hprod : 0 < pygcd a b * pylcm a b := by rw [hexact]; exact habspos
  constructor
  · intro hL
    by_contra hbneg
    push_neg at hbneg
    have hblt : b < 0 := lt_of_le_of_ne hbneg hb
    have := s2 hblt
    nlinarith
  · intro hbpos
    have := s1 hbpos
    nlinarith

/-- The denominator produced by `Ratio.__add__` is the Python `lcm` of the
operand denominators. -/
theorem Frac.add_den (s o : Frac) : (s.add o).den = pylcm s.den o.den := rfl

/-- On nonzero denominators, `Ratio.__add__` computes the exact rational
sum: the two flooring divisions by the operand denominators are exact. -/
theorem Frac.add_val {s o : Frac} (hs : s.den ≠ 0) (ho : o.den ≠ 0) :
    (s.add o).val = s.val + o.val := by
  obtain ⟨hda, hdb, hne, -⟩ := pylcm_spec hs ho
  obtain ⟨e1, he1⟩ := hda
  obtain ⟨e2, he2⟩ := hdb
  have r1 : (s.num * pylcm s.den o.den).fdiv s.den = s.num * e1 := by
    rw [he1, show s.num * (s.den * e1) = s.den * (s.num * e1) by ring,
      Int.mul_fdiv_cancel_left _ hs]
  have r2 : (o.num * pylcm s.den o.den).fdiv o.den = o.num * e2 := by
    rw [he2, show o.num * (o.den * e2) = o.den * (o.num * e2) by ring,
      Int.mul_fdiv_cancel_left _ ho]
  have hsQ : (s.den : ℚ) ≠ 0 := Int.cast_ne_zero.mpr hs
  have hoQ : (o.den : ℚ) ≠ 0 := Int.cast_ne_zero.mpr ho
  have hlQ : ((pylcm s.den o.den : ℤ) : ℚ) ≠ 0 := Int.cast_ne_zero.mpr hne
  have he1Q : ((pylcm s.den o.den : ℤ) : ℚ) = (s.den : ℚ) * (e1 : ℚ) := by
    exact_mod_cast congrArg (fun z : ℤ => (z : ℚ)) he1
  have he2Q : ((pylcm s.den o.den : ℤ) : ℚ) = (o.den : ℚ) * (e2 : ℚ) := by
    exact_mod_cast congrArg (fun z : ℤ => (z : ℚ)) he2
  simp only [Frac.add, Frac.val, r1, r2]
  rw [div_add_div _ _ hsQ hoQ, div_eq_div_iff hlQ (mul_ne_zero hsQ hoQ)]
  push_cast
  linear_combination (-(s.num : ℚ) * o.den) * he1Q + (-(o.num : ℚ) * s.den) * he2Q

/-- Subtraction is `self + Ratio(-other.num, other.den)`, hence exact. -/
theorem Frac.sub_val {s o : Frac} (hs : s.den ≠ 0) (ho : o.den ≠ 0) :
    (s.sub o).val = s.val - o.val := by
  have h1 : (Frac.mk (-o.num) o.den).val = -o.val := by
    simp [Frac.val, neg_div]
  rw [Frac.sub, Frac.add_val hs (show (Frac.mk (-o.num) o.den).den ≠ 0 from ho), h1,
    sub_eq_add_neg]

/-- The denominator produced by `Ratio.__sub__`. -/
theorem Frac.sub_den (s o : Frac) : (s.sub o).den = pylcm s.den o.den := rfl

/-- `Ratio.__abs__` computes the absolute value of the denoted rational. -/
theorem Frac.abs_val (s : Frac) : s.abs.val = |s.val| := by
  simp [Frac.abs, Frac.val, abs_div]

/-- The denominator produced by `Ratio.__abs__`. -/
theorem Frac.abs_den (s : Frac) : s.abs.den = |s.den| := rfl

/-- On nonzero denominators (of either sign), `Ratio.__eq__` decides exact
equality of the denoted rationals. -/
theorem Frac.beq_val {s o : Frac} (hs : s.den ≠ 0) (ho : o.den ≠ 0) :
    s.beq o = true ↔ s.val = o.val := by
  obtain ⟨hda, hdb, hne, -⟩ := pylcm_spec hs ho
  obtain ⟨e1, he1⟩ := hda
  obtain ⟨e2, he2⟩ := hdb
  have r1 : (s.num * pylcm s.den o.den).fdiv s.den = s.num * e1 := by
    rw [he1, show s.num * (s.den * e1) = s.den * (s.num * e1) by ring,
      Int.mul_fdiv_cancel_left _ hs]
  have r2 : (o.num * pylcm s.den o.den).fdiv o.den = o.num * e2 := by
    rw [he2, show o.num * (o.den * e2) = o.den * (o.num * e2) by ring,
      Int.mul_fdiv_cancel_left _ ho]
  have hsQ : (s.den : ℚ) ≠ 0 := Int.cast_ne_zero.mpr hs
  have hoQ : (o.den : ℚ) ≠ 0 := Int.cast_ne_zero.mpr ho
  have hval : s.val = o.val ↔ s.num * o.den = o.num * s.den := by
    rw [Frac.val, Frac.val, div_eq_div_iff hsQ hoQ]
    exact_mod_cast Iff.rfl
  rw [hval]
  simp only [Frac.beq, r1, r2, beq_iff_eq]
  constructor
  · intro h
    have h2 : pylcm s.den o.den * (s.num * o.den) = pylcm s.den o.den * (o.num * s.den) := by
      linear_combination (s.num * o.den) * he1 - (o.num * s.den) * he2 +
        (s.den * o.den) * h
    exact mul_left_cancel₀ hne h2
  · intro h
    have h2 : pylcm s.den o.den * (s.num * e1) = pylcm s.den o.den * (o.num * e2) := by
      linear_combination (s.num * e1) * he2 - (o.num * e2) * he1 + (e1 * e2) * h
    exact mul_left_cancel₀ hne h2

/-- On a nonzero left denominator and a positive right denominator,
`Ratio.__lt__` decides exact strict order of the denoted rationals. -/
theorem Frac.blt_val {s o : Frac} (hs : s.den ≠ 0) (ho : 0 < o.den) :
    s.blt o = true ↔ s.val < o.val := by
  have ho' : o.den ≠ 0 := ne_of_gt ho
  obtain ⟨hda, hdb, hne, hpos⟩ := pylcm_spec hs ho'
  obtain ⟨e1, he1⟩ := hda
  obtain ⟨e2, he2⟩ := hdb
  have r1 : (s.num * pylcm s.den o.den).fdiv s.den = s.num * e1 := by
    rw [he1, show s.num * (s.den * e1) = s.den * (s.num * e1) by ring,
      Int.mul_fdiv_cancel_left _ hs]
  have r2 : (o.num * pylcm s.den o.den).fdiv o.den = o.num * e2 := by
    rw [he2, show o.num * (o.den * e2) = o.den * (o.num * e2) by ring,
      Int.mul_fdiv_cancel_left _ ho']
  have hlpos : (0 : ℚ) < ((pylcm s.den o.den : ℤ) : ℚ) := by
    exact_mod_cast hpos.mpr ho
  have key1 : (s.num * e1 : ℚ) = s.val * ((pylcm s.den o.den : ℤ) : ℚ) := by
    have hsQ : (s.den : ℚ) ≠ 0 := Int.cast_ne_zero.mpr hs
    have he1Q : ((pylcm s.den o.den : ℤ) : ℚ) = (s.den : ℚ) * (e1 : ℚ) := by
      exact_mod_cast congrArg (fun z : ℤ => (z : ℚ)) he1
    rw [Frac.val, he1Q]
    field_simp
    ring
  have key2 : (o.num * e2 : ℚ) = o.val * ((pylcm s.den o.den : ℤ) : ℚ) := by
    have hoQ : (o.den : ℚ) ≠ 0 := Int.cast_ne_zero.mpr ho'
    have he2Q : ((pylcm s.den o.den : ℤ) : ℚ) = (o.den : ℚ) * (e2 : ℚ) := by
      exact_mod_cast congrArg (fun z : ℤ => (z : ℚ)) he2
    rw [Frac.val, he2Q]
    field_simp
    ring
  simp only [Frac.blt, r1, r2, decide_eq_true_eq]
  constructor
  · intro h
    have hq : (s.num * e1 : ℚ) < (o.num * e2 : ℚ) := by exact_mod_cast h
    rw [key1, key2] at hq
    exact lt_of_mul_lt_mul_right hq (le_of_lt hlpos)
  · intro h
    have hq : s.val * ((pylcm s.den o.den : ℤ) : ℚ) < o.val * ((pylcm s.den o.den : ℤ) : ℚ) :=
      (mul_lt_mul_right hlpos).mpr h
    rw [← key1, ← key2] at hq
    exact_mod_cast hq

/-! ### The integer square root model -/

/-- Invariant proof for the linear-search integer square root. -/
theorem isqrtGo_spec (n : ℕ) : ∀ (f k : ℕ), k * k ≤ n → n < (k + f + 1) * (k + f + 1) →
    isqrtGo n f k * isqrtGo n f k ≤ n ∧ n < (isqrtGo n f k + 1) * (isqrtGo n f k + 1) := by
  intro f
  induction f with
  | zero =>
    intro k h1 h2
    constructor
    · simpa [isqrtGo] using h1
    · simpa [isqrtGo] using h2
  | succ f ih =>
    intro k h1 h2
    by_cases hc : (k+1)*(k+1) ≤ n
    · have h2' : n < ((k+1) + f + 1) * ((k+1) + f + 1) := by
        have he : (k+1) + f + 1 = k + (f+1) + 1 := by omega
        rw [he]
        exact h2
      have := ih (k+1) hc h2'
      simpa [isqrtGo, hc] using this
    · constructor
      · simpa [isqrtGo, hc] using h1
      · simp only [isqrtGo, hc, if_false]
        omega
  
/-- The model `isqrtLin` satisfies the floor square root specification. -/
theorem isqrtLin_spec (n : ℕ) :
    isqrtLin n * isqrtLin n ≤ n ∧ n < (isqrtLin n + 1) * (isqrtLin n + 1) :=
  isqrtGo_spec n n 0 (by omega) (by nlinarith)

/-- `isqrtLin` agrees with Mathlib's `Nat.sqrt`. -/
theorem isqrtLin_eq_sqrt (n : ℕ) : isqrtLin n = Nat.sqrt n :=
  (Nat.eq_sqrt.mpr (isqrtLin_spec n)).symm ▸ rfl

/-- On a perfect square `k * k`, the model integer square root is `k`. -/
theorem isqrtLin_of_sq (k : ℕ) : isqrtLin (k * k) = k := by
  rw [isqrtLin_eq_sqrt, Nat.sqrt_eq]

/-- A Newton step from any positive guess stays at or above the root. -/
theorem sqrt_le_step (n g : ℕ) (hg : 1 ≤ g) : Nat.sqrt n ≤ (g + n / g) / 2 := by
  rcases le_or_lt (2 * Nat.sqrt n) g with h | h
  · calc Nat.sqrt n ≤ g / 2 := by omega
      _ ≤ (g + n / g) / 2 := Nat.div_le_div_right (Nat.le_add_right g (n / g))
  · have h2 : g ≤ 2 * Nat.sqrt n := by omega
    have h1 : g * (2 * Nat.sqrt n - g) ≤ Nat.sqrt n * Nat.sqrt n := by
      zify [h2]
      nlinarith [sq_nonneg ((Nat.sqrt n : ℤ) - g)]
    have h3 : Nat.sqrt n * Nat.sqrt n ≤ n := Nat.sqrt_le n
    have h4 : 2 * Nat.sqrt n - g ≤ n / g := by
      rw [Nat.le_div_iff_mul_le hg]
      calc (2 * Nat.sqrt n - g) * g = g * (2 * Nat.sqrt n - g) := by ring
        _ ≤ Nat.sqrt n * Nat.sqrt n := h1
        _ ≤ n := h3
    generalize hq : n / g = dq at h4 ⊢
    omega

/-- The Newton iteration computes `Nat.sqrt` whenever it starts at or
above the root with enough fuel. -/
theorem nsqrtIter_eq : ∀ (f n g : ℕ), 1 ≤ Nat.sqrt n → Nat.sqrt n ≤ g → g ≤ f →
    nsqrtIter f n g = Nat.sqrt n := by
  intro f
  induction f with
  | zero => intro n g h1 h2 h3; omega
  | succ f ih =>
    intro n g h1 h2 h3
    rw [nsqrtIter]
    by_cases hlt : (g + n / g) / 2 < g
    · rw [if_pos hlt]
      exact ih n _ h1 (sqrt_le_step n g (by omega)) (by omega)
    · rw [if_neg hlt]
      by_contra hne
      have hgt : Nat.sqrt n < g := lt_of_le_of_ne h2 (fun he => hne he.symm)
      have hlt2 : n < g * g := by
        calc n < (Nat.sqrt n + 1) * (Nat.sqrt n + 1) := Nat.lt_succ_sqrt n
          _ ≤ g * g := Nat.mul_le_mul (by omega) (by omega)
      have hdiv : n / g < g := (Nat.div_lt_iff_lt_mul (by omega)).mpr hlt2
      generalize hq : n / g = dq at hdiv hlt
      omega

/-- `nsqrt` agrees with `Nat.sqrt`: the fast square root is exact. -/
theorem nsqrt_eq (n : ℕ) : nsqrt n = Nat.sqrt n := by
  unfold nsqrt
  by_cases h : n ≤ 1
  · rw [if_pos h]
    rcases Nat.le_one_iff_eq_zero_or_eq_one.mp h with rfl | rfl
    · exact Nat.sqrt_zero.symm
    · exact Nat.sqrt_one.symm
  · rw [if_neg h]
    have hs1 : 1 ≤ Nat.sqrt n := by
      have h2 := Nat.sqrt_le_sqrt (show 1 ≤ n by omega)
      rwa [Nat.sqrt_one] at h2
    refine nsqrtIter_eq n n (n / 2 + 1) hs1 ?_ (by omega)
    by_contra hc
    push_neg at hc
    have h3 : (n / 2 + 2) * (n / 2 + 2) ≤ Nat.sqrt n * Nat.sqrt n :=
      Nat.mul_le_mul (by omega) (by omega)
    have h4 : Nat.sqrt n * Nat.sqrt n ≤ n := Nat.sqrt_le n
    have h5 : n ≤ 2 * (n / 2) + 1 := by omega
    nlinarith [h3, h4, h5]

/-- `bitLen f n` with fuel `f ≥ n` is the floor base-two logarithm of
`n ≥ 1`. -/
theorem bitLen_spec : ∀ (f n : ℕ), 1 ≤ n → n ≤ f →
    2 ^ bitLen f n ≤ n ∧ n < 2 ^ (bitLen f n + 1) := by
  intro f
  induction f with
  | zero => intro n h1 h2; omega
  | succ f ih =>
    intro n h1 h2
    rw [bitLen]
    by_cases h : n ≤ 1
    · rw [if_pos h]
      have he : n = 1 := by omega
      subst he
      constructor <;> norm_num
    · rw [if_neg h]
      have h3 : 1 ≤ n / 2 := by omega
      have h4 : n / 2 ≤ f := by omega
      obtain ⟨ih1, ih2⟩ := ih (n / 2) h3 h4
      rw [pow_succ] at ih2
      constructor
      · rw [pow_succ]
        omega
      · rw [pow_succ, pow_succ]
        omega

/-! ### Fuel monotonicity of the loop -/

/-- A `some` answer of the fuelled loop is stable under increasing fuel. -/
theorem loopGo_mono (n a0 T10 : ℤ) :
    ∀ (f g : ℕ) (m d : ℤ) (rl : List ℤ) (pc : Option Frac) (c : Frac), f ≤ g →
      loopGo n a0 T10 f m d rl pc = some c → loopGo n a0 T10 g m d rl pc = some c := by
  intro f
  induction f with
  | zero =>
    intro g m d rl pc c hfg h
    simp [loopGo] at h
  | succ f ih =>
    intro g m d rl pc c hfg h
    rcases g with _ | g
    · omega
    · rcases pc with _ | pcv
      · rw [loopGo] at h
        rw [loopGo]
        exact ih g _ _ _ _ _ (by omega) h
      · rw [loopGo] at h
        rw [loopGo]
        by_cases hc : ((convergent (((a0 + (d * rl.headI - m)).fdiv
            ((n - (d * rl.headI - m) ^ 2).fdiv d)) :: rl)).sub pcv).abs.blt ⟨1, T10⟩ = true
        · simp only [hc, if_true] at h ⊢
          exact h
        · simp only [Bool.not_eq_true] at hc
          simp only [hc, Bool.false_eq_true, if_false] at h ⊢
          exact ih g _ _ _ _ _ (by omega) h

/-- A `some` answer of `precSqrt` is stable under increasing fuel. -/
theorem precSqrt_mono {n : ℤ} {dig : ℕ} : ∀ (f g : ℕ) (r : Except PyErr String), f ≤ g →
    precSqrt n dig f = some r → precSqrt n dig g = some r := by
  intro f g r hfg h
  unfold precSqrt at h ⊢
  by_cases h0 : n < 0
  · rw [if_pos h0] at h ⊢
    exact h
  · rw [if_neg h0] at h ⊢
    by_cases h1 : ((isqrtLin n.toNat : ℤ)) * ((isqrtLin n.toNat : ℤ)) = n
    · rw [if_pos h1] at h ⊢
      exact h
    · rw [if_neg h1] at h ⊢
      rcases hl : loopGo n ((isqrtLin n.toNat : ℤ)) (tenPow (dig + 1)) f 0 1
          [(isqrtLin n.toNat : ℤ)] none with _ | c
      · rw [hl] at h
        simp at h
      · rw [hl] at h
        rw [loopGo_mono n _ _ f g 0 1 _ none c hfg hl]
        exact h

/-! ### The perfect-square fast path under the exact seeding -/

/-- The intended behaviour behind claim C1, proved for the exact seeding
the spec prescribes (`precSqrt`): for every perfect square `n = k*k ≥ 0`
and every digit count `d ≥ 1`, the fast path returns the decimal string
of the exact integer square root `k`, with no decimal point, for any fuel
(the fast path does not iterate); in particular `sqrtToDigits(4, 5) = "2"`.
The source's float seeding breaks this for roots beyond `2^53`; the
claim-C1 theorem at the end of the file exhibits that. -/
theorem exactSeed_perfect_square (k d fuel : ℕ) (hd : 1 ≤ d) :
    precSqrt ((k : ℤ) * (k : ℤ)) d fuel = some (Except.ok (toString k)) := by
  unfold precSqrt
  have h0 : ¬((k : ℤ) * (k : ℤ) < 0) := Int.not_lt.mpr (by positivity)
  rw [if_neg h0]
  have ht : ((k : ℤ) * (k : ℤ)).toNat = k * k := by
    rw [show (k : ℤ) * (k : ℤ) = ((k * k : ℕ) : ℤ) by push_cast [Nat.cast_mul]; ring,
      Int.toNat_natCast]
  have hsq : isqrtLin (((k : ℤ) * (k : ℤ)).toNat) = k := by
    rw [ht, isqrtLin_of_sq]
  rw [hsq]
  rw [if_pos rfl]
  rfl

/-- The exact-seed fast path at the spec's concrete scenario
`sqrtToDigits(4, 5) = "2"`. -/
theorem exactSeed_perfect_square_check :
    (1 ≤ 5) ∧ precSqrt 4 5 0 = some (Except.ok "2") := by
  refine ⟨by omega, ?_⟩
  have h := exactSeed_perfect_square 2 5 0 (by omega)
  exact h

/-! ### Claim C2: ten digits of the square root of two -/

set_option maxRecDepth 10000 in
/-- C2: `sqrtToDigits(2, 10)` returns a string beginning with
`"1.4142135623"` (with sufficient fuel the loop stops after 16 rounds, and
the rendered result is exactly that string). -/
theorem C2_sqrt_two_ten_digits :
    ∃ s : String, precSqrt 2 10 16 = some (Except.ok s) ∧
      strTake s 12 = "1.4142135623" :=
  ⟨"1.4142135623", by rfl, by rfl⟩

/-! ### Claim C5: negative radicand -/

/-- C5: for every negative `n` (and any digits and fuel), `precSqrt` fails
with the invalid-radicand error (the `ValueError` raised by `math.sqrt`)
rather than returning a string. -/
theorem C5_negative_radicand (n : ℤ) (dig fuel : ℕ) (hn : n < 0) :
    precSqrt n dig fuel = some (Except.error PyErr.invalidRadicand) := by
  unfold precSqrt
  rw [if_pos hn]

/-- Witness for C5 at the spec's concrete scenario `sqrtToDigits(-1, 5)`. -/
theorem C5_negative_radicand_witness :
    ((-1 : ℤ) < 0) ∧ precSqrt (-1) 5 0 = some (Except.error PyErr.invalidRadicand) :=
  ⟨by omega, C5_negative_radicand (-1) 5 0 (by omega)⟩

/-! ### Claim C6 (refuted): digits below 1 -/

set_option maxRecDepth 10000 in
/-- C6 counterexample: `precSqrt(2, 0)` does not fail; it terminates and
returns the (malformed) string `".1"`.  The source `precSqrt` contains no
precision validation at all. -/
theorem C6_counterexample : precSqrt 2 0 10 = some (Except.ok ".1") := by rfl

/-- C6 amended: validation of `digits ≥ 1` lives in the surrounding I/O
loop `main`, which rejects `dig < 1` and re-prompts (lines 163-165);
`precSqrt` itself, called with `digits = 0`, returns the string `".1"`. -/
theorem C6_amended_validation_in_main (dig : ℤ) (h : dig < 1) :
    mainRejectsPrecision dig = true ∧ precSqrt 2 0 10 = some (Except.ok ".1") := by
  constructor
  · simp [mainRejectsPrecision, h]
  · exact C6_counterexample

/-- Witness for the amended C6 at `dig = 0`. -/
theorem C6_amended_validation_in_main_witness :
    ((0 : ℤ) < 1) ∧ (mainRejectsPrecision 0 = true ∧
      precSqrt 2 0 10 = some (Except.ok ".1")) :=
  ⟨by omega, C6_amended_validation_in_main 0 (by omega)⟩

/-! ### Claim C8 (refuted): in-place reciprocal never fails -/

/-- C8 counterexample: the in-place reciprocal of a `Ratio` with zero
numerator does not fail with a division-by-zero condition; it succeeds and
returns the `Ratio` `5/0` with zero denominator.  (`Ratio.rec` in the
source performs an unconditional field swap with no check; a failure
surfaces only later, in operations that divide by the denominator.) -/
theorem C8_counterexample : Frac.recip ⟨0, 5⟩ = (⟨5, 0⟩ : Frac) := rfl

/-- C8 amended: `Ratio.rec` swaps numerator and denominator
unconditionally and signals no error; in particular the reciprocal of a
zero-numerator value yields a zero denominator. -/
theorem C8_amended_swap (a : Frac) :
    (Frac.recip a).num = a.den ∧ (Frac.recip a).den = a.num := ⟨rfl, rfl⟩

/-! ### Claim C9 (refuted): comparison correctness -/

/-- C9 counterexample: `Ratio.__lt__` is not correct for every sign
combination.  `lessThan(1/1, -2 / -1)` returns `False` although `1 < 2`:
the `lcm` used as common multiplier carries the sign of the second
denominator, so a negative `other.den` inverts the comparison. -/
theorem C9_counterexample :
    Frac.blt ⟨1, 1⟩ ⟨-2, -1⟩ = false ∧ (Frac.mk 1 1).val < (Frac.mk (-2) (-1)).val := by
  constructor
  · rfl
  · show (1 : ℚ) / 1 < (-2 : ℚ) / (-1)
    norm_num

/-- C9 amended: `equals` decides exact equality of the denoted rationals
for all nonzero denominators of arbitrary signs (in particular
`-1/2 == 1 / -2`), and `lessThan` decides exact strict order whenever the
second argument's denominator is positive (when it is negative the
comparison is inverted, see the counterexample). -/
theorem C9_eq_lt_domains (a b : Frac) (ha : a.den ≠ 0) (hb : b.den ≠ 0) :
    (a.beq b = true ↔ a.val = b.val) ∧
      (0 < b.den → (a.blt b = true ↔ a.val < b.val)) :=
  ⟨Frac.beq_val ha hb, fun hbp => Frac.blt_val ha hbp⟩

/-- Witness for the amended C9 at the spec's example `-1/2 == 1 / -2` and at
an order instance `1/2 < 2/3`. -/
theorem C9_eq_lt_domains_witness :
    ((-1 : ℤ) ≠ 0 ∧ (2 : ℤ) ≠ 0 ∧ ((2:ℤ) ≠ 0 ∧ (0:ℤ) < 3)) ∧
      (Frac.beq ⟨-1, 2⟩ ⟨1, -2⟩ = true ↔ (Frac.mk (-1) 2).val = (Frac.mk 1 (-2)).val) ∧
      (Frac.blt ⟨1, 2⟩ ⟨2, 3⟩ = true ↔ (Frac.mk 1 2).val < (Frac.mk 2 3).val) := by
  refine ⟨⟨by omega, by omega, by omega, by omega⟩, ?_, ?_⟩
  · exact (C9_eq_lt_domains ⟨-1, 2⟩ ⟨1, -2⟩ (by decide) (by decide)).1
  · exact (C9_eq_lt_domains ⟨1, 2⟩ ⟨2, 3⟩ (by decide) (by decide)).2 (by decide)

/-! ### Claim C3 (refuted): digit stability -/

set_option maxRecDepth 10000 in
/-- C3 counterexample: digit stability fails at `n = 19`, `d1 = 4`,
`d2 = 5`.  `sqrtToDigits(19, 4)` returns `"4.3589"` while
`sqrtToDigits(19, 5)` returns `"4.35889"`: the first 4 fractional digits
of the 5-digit run (`3588`) differ from the 4 fractional digits of the
4-digit run (`3589`).  (√19 = 4.35889894…; the 4-digit run stops at a
convergent slightly above √19, across the truncation boundary.) -/
theorem C3_counterexample :
    precSqrt 19 4 7 = some (Except.ok "4.3589") ∧
    precSqrt 19 5 9 = some (Except.ok "4.35889") ∧
    (fracDigits "4.35889").take 4 ≠ fracDigits "4.3589" := by
  refine ⟨by rfl, by rfl, by decide⟩

set_option maxRecDepth 10000 in
/-- C3 amended: digit stability holds in the spec's cited instance but not
universally.  For `n = 2`, the first 5 fractional digits of
`sqrtToDigits(2, 10)` equal the fractional digits of `sqrtToDigits(2, 5)`. -/
theorem C3_amended_instance :
    precSqrt 2 5 9 = some (Except.ok "1.41421") ∧
    precSqrt 2 10 16 = some (Except.ok "1.4142135623") ∧
    (fracDigits "1.4142135623").take 5 = fracDigits "1.41421" := by
  refine ⟨by rfl, by rfl, by decide⟩

/-! ### The reduced-surd invariant of the continued-fraction state -/

/-- Squares below `n` have base at most `a0`, for `a0` the floor square
root of `n`. -/
theorem le_a0_of_sq_lt {n a0 x : ℤ} (ha0 : 0 ≤ a0) (ha2 : n < (a0 + 1) ^ 2)
    (hx : x ^ 2 < n) : x ≤ a0 := by
  by_contra hc
  push_neg at hc
  have h1 : (a0 + 1) ^ 2 ≤ x ^ 2 := pow_le_pow_left₀ (by omega) (by omega) 2
  linarith

/-- Initialization: after the first round from `(m, d) = (0, 1)` the state
satisfies the invariant. -/
theorem Rinv_init {n a0 : ℤ} (ha0 : 1 ≤ a0) (ha1 : a0 ^ 2 < n)
    (ha2 : n < (a0 + 1) ^ 2) :
    Rinv n (cfState n a0 1).1 (cfState n a0 1).2 := by
  have hstep : cfState n a0 1 = (a0, n - a0 ^ 2) := by
    show cfStep n a0 (0, 1) = _
    simp [cfStep, Int.fdiv_one]
  rw [hstep]
  show Rinv n a0 (n - a0 ^ 2)
  have hd1 : 1 ≤ n - a0 ^ 2 := by linarith
  refine ⟨hd1, ⟨1, by ring⟩, ha0, ha1, ?_, ?_⟩
  · have h1 : a0 + 1 ≤ a0 + (n - a0 ^ 2) := by linarith
    have h2 : (a0 + 1) ^ 2 ≤ (a0 + (n - a0 ^ 2)) ^ 2 := pow_le_pow_left₀ (by omega) h1 2
    linarith
  · rcases le_or_lt (n - a0 ^ 2) a0 with h | h
    · exact Or.inl h
    · right
      have hub : n - a0 ^ 2 - a0 ≤ a0 := by nlinarith
      have h2 : (n - a0 ^ 2 - a0) ^ 2 ≤ a0 ^ 2 := pow_le_pow_left₀ (by omega) hub 2
      linarith

set_option maxHeartbeats 1000000 in
/-- Preservation: one round of the update keeps the invariant, the
appended partial quotient is at least 1, the flooring division producing
the new `d` is exact, and the new `m` is at most `a0`. -/
theorem Rinv_step {n a0 m d : ℤ} (ha0 : 1 ≤ a0) (ha1 : a0 ^ 2 < n)
    (ha2 : n < (a0 + 1) ^ 2) (h : Rinv n m d) :
    Rinv n (cfStep n a0 (m, d)).1 (cfStep n a0 (m, d)).2 ∧
      1 ≤ (a0 + m).fdiv d ∧
      d * (cfStep n a0 (m, d)).2 = n - ((cfStep n a0 (m, d)).1) ^ 2 ∧
      (cfStep n a0 (m, d)).1 ≤ a0 := by
  obtain ⟨hd1, hdvd, hm1, hmn, hmd, hxi⟩ := h
  have hstep : cfStep n a0 (m, d) = (d * ((a0 + m).fdiv d) - m,
      (n - (d * ((a0 + m).fdiv d) - m) ^ 2).fdiv d) := rfl
  rw [hstep]
  have hdpos : (0 : ℤ) < d := by omega
  have hfb := fdiv_bounds (a0 + m) hdpos
  set aL := (a0 + m).fdiv d with haLdef
  set m2 := d * aL - m with hm2def
  have hma0 : m ≤ a0 := le_a0_of_sq_lt (by omega) ha2 hmn
  have hge : d ≤ a0 + m := by
    rcases hxi with hdm | hsq2
    · omega
    · have := le_a0_of_sq_lt (by omega) ha2 hsq2
      omega
  have haL1 : 1 ≤ aL := by
    by_contra hc
    push_neg at hc
    have h1 : d * aL ≤ 0 := mul_nonpos_of_nonneg_of_nonpos (by omega) (by omega)
    linarith [hfb.2]
  have hm2a0 : m2 ≤ a0 := by linarith [hfb.1]
  have hm2lo : a0 - d < m2 := by linarith [hfb.2]
  have hdaL : d ≤ d * aL := by
    have h1 := mul_le_mul_of_nonneg_left haL1 (le_of_lt hdpos)
    linarith
  have hm21 : 1 ≤ m2 := by
    rcases le_or_lt d a0 with hle | hgt
    · omega
    · have hgt1 : a0 + 1 ≤ d := by omega
      linarith
  have hm2sq : m2 ^ 2 < n := by
    have h1 : m2 ^ 2 ≤ a0 ^ 2 := pow_le_pow_left₀ (by omega) hm2a0 2
    linarith
  have hdvd2 : d ∣ (n - m2 ^ 2) := by
    obtain ⟨t, ht⟩ := hdvd
    exact ⟨t - (d * aL ^ 2 - 2 * aL * m), by linear_combination ht⟩
  set d2 := (n - m2 ^ 2).fdiv d with hd2def
  have hexact2 : d * d2 = n - m2 ^ 2 := fdiv_exact hdvd2 (by omega)
  have hd2pos : 1 ≤ d2 := by
    by_contra hc
    push_neg at hc
    have hp : 0 < d * d2 := by linarith [hexact2]
    have hq : d * d2 ≤ 0 := mul_nonpos_of_nonneg_of_nonpos (by omega) (by omega)
    linarith
  have hnew1 : n < (m2 + d) ^ 2 := by
    have h1 : a0 + 1 ≤ m2 + d := by linarith [hfb.2]
    have h2 : (a0 + 1) ^ 2 ≤ (m2 + d) ^ 2 := pow_le_pow_left₀ (by omega) h1 2
    linarith
  have hnew2 : n < (m2 + d2) ^ 2 := by
    by_contra hc
    push_neg at hc
    have h1 : d2 * (2 * m2 + d2) ≤ d * d2 := by nlinarith
    have h2 : 2 * m2 + d2 ≤ d := le_of_mul_le_mul_right (by linarith) (by omega)
    have h3 : d ≤ m + m2 := by linarith
    have h4 : n - m2 ^ 2 ≤ (m + m2) * d2 := by
      have h5 := mul_le_mul_of_nonneg_right h3 (show (0:ℤ) ≤ d2 by omega)
      linarith [hexact2]
    have h6 : m2 + d2 ≤ m := by omega
    have h7 : (m - m2) * (m + m2) < d2 * (m + m2) := by nlinarith
    have h8 : m - m2 < d2 := lt_of_mul_lt_mul_right h7 (by omega)
    omega
  have hnew3 : d2 ≤ m2 ∨ (d2 - m2) ^ 2 < n := by
    rcases le_or_lt d2 m2 with h | h
    · exact Or.inl h
    · right
      have hda0 : d2 ≤ a0 + m2 := by
        by_contra hc2
        push_neg at hc2
        have hge2 : a0 + 1 - m2 ≤ d := by
          by_contra hc3
          push_neg at hc3
          have hmd0 : m2 + d ≤ a0 := by omega
          have hx : (m2 + d) ^ 2 ≤ a0 ^ 2 := pow_le_pow_left₀ (by omega) hmd0 2
          linarith
        have hx : (a0 + 1 - m2) * (a0 + 1 + m2) ≤ d * d2 :=
          mul_le_mul hge2 (by omega) (by omega) (by omega)
        nlinarith
      have h1 : (d2 - m2) ^ 2 ≤ a0 ^ 2 := pow_le_pow_left₀ (by omega) (by omega) 2
      linarith
  exact ⟨⟨hd2pos, ⟨d, by linarith⟩, hm21, hm2sq, hnew2, hnew3⟩, haL1, hexact2, hm2a0⟩

/-- The state after the first round, computed. -/
theorem cfState_one (n a0 : ℤ) : cfState n a0 1 = (a0, n - a0 ^ 2) := by
  show cfStep n a0 (0, 1) = _
  simp [cfStep, Int.fdiv_one]

/-- The invariant holds at every state from round 1 on. -/
theorem cfState_inv {n a0 : ℤ} (ha0 : 1 ≤ a0) (ha1 : a0 ^ 2 < n)
    (ha2 : n < (a0 + 1) ^ 2) :
    ∀ k, 1 ≤ k → Rinv n (cfState n a0 k).1 (cfState n a0 k).2 := by
  intro k hk
  induction k with
  | zero => omega
  | succ k ih =>
    rcases Nat.lt_or_ge 0 k with h | h
    · have hinv := ih (by omega)
      exact (Rinv_step ha0 ha1 ha2 hinv).1
    · have hk0 : k = 0 := by omega
      subst hk0
      exact Rinv_init ha0 ha1 ha2

/-- In every round the flooring division computing the new `d` is exact:
`d * d_new = n - m_new ^ 2`. -/
theorem cf_division_exact {n a0 : ℤ} (ha0 : 1 ≤ a0) (ha1 : a0 ^ 2 < n)
    (ha2 : n < (a0 + 1) ^ 2) (k : ℕ) :
    (cfState n a0 k).2 * (cfState n a0 (k+1)).2 =
      n - ((cfState n a0 (k+1)).1) ^ 2 := by
  rcases Nat.lt_or_ge 0 k with h | h
  · have hinv := cfState_inv ha0 ha1 ha2 k (by omega)
    exact (Rinv_step ha0 ha1 ha2 hinv).2.2.1
  · have hk0 : k = 0 := by omega
    subst hk0
    rw [cfState_one]
    show 1 * (n - a0 ^ 2) = n - a0 ^ 2
    ring

/-- Facts about `a0 = int(floor(sqrt(n)))` for a non-negative non-square
radicand: the seed is at least 1 and brackets `n` strictly. -/
theorem a0_facts {n : ℤ} (hn : 0 ≤ n) (hnsq : ∀ z : ℤ, z * z ≠ n) :
    1 ≤ (isqrtLin n.toNat : ℤ) ∧ ((isqrtLin n.toNat : ℤ)) ^ 2 < n ∧
      n < ((isqrtLin n.toNat : ℤ) + 1) ^ 2 := by
  obtain ⟨h1, h2⟩ := isqrtLin_spec n.toNat
  have hto : ((n.toNat : ℤ)) = n := Int.toNat_of_nonneg hn
  have h1q : ((isqrtLin n.toNat : ℤ)) * (isqrtLin n.toNat : ℤ) ≤ n := by
    rw [← hto]
    exact_mod_cast h1
  have h2q : n < ((isqrtLin n.toNat : ℤ) + 1) * ((isqrtLin n.toNat : ℤ) + 1) := by
    rw [← hto]
    exact_mod_cast h2
  have hne := hnsq (isqrtLin n.toNat : ℤ)
  have hlt : ((isqrtLin n.toNat : ℤ)) ^ 2 < n := by
    rw [pow_two]
    exact lt_of_le_of_ne h1q hne
  have hz := hnsq 0
  have ho := hnsq 1
  have hn2 : 2 ≤ n := by omega
  have ha0 : 1 ≤ (isqrtLin n.toNat : ℤ) := by
    by_contra hc
    push_neg at hc
    have hL0 : (isqrtLin n.toNat : ℤ) = 0 := by omega
    rw [hL0] at h2q
    omega
  refine ⟨ha0, hlt, ?_⟩
  rw [pow_two]
  exact h2q

/-- No integer squares to 2. -/
theorem not_sq_two : ∀ z : ℤ, z * z ≠ 2 := by
  intro z h
  have h1 : z.natAbs * z.natAbs = 2 := by
    have h2 : ((z.natAbs * z.natAbs : ℕ) : ℤ) = 2 := by
      rw [Int.natAbs_mul_self]
      exact h
    exact_mod_cast h2
  rcases Nat.lt_or_ge z.natAbs 2 with h2 | h2
  · interval_cases hna : z.natAbs <;> omega
  · have : 4 ≤ z.natAbs * z.natAbs := Nat.mul_le_mul h2 h2
    omega

/-- `2^(2p) + 1` is never a perfect square: it lies strictly between
`(2^p)^2` and `(2^p + 1)^2`. -/
theorem not_sq_two_pow (p : ℕ) : ∀ z : ℤ, z * z ≠ 2 ^ (2 * p) + 1 := by
  intro z h
  have hk : (z.natAbs * z.natAbs : ℕ) = 2 ^ (2 * p) + 1 := by
    have h2 : ((z.natAbs * z.natAbs : ℕ) : ℤ) = 2 ^ (2 * p) + 1 := by
      rw [Int.natAbs_mul_self]
      exact h
    exact_mod_cast h2
  have hpp : (2 : ℕ) ^ p * 2 ^ p = 2 ^ (2 * p) := by
    rw [← pow_add]
    congr 1
    omega
  have h1 : 1 ≤ (2 : ℕ) ^ p := Nat.one_le_two_pow
  rcases le_or_lt z.natAbs (2 ^ p) with hle | hlt
  · have h3 : z.natAbs * z.natAbs ≤ 2 ^ p * 2 ^ p := Nat.mul_le_mul hle hle
    rw [hpp] at h3
    linarith
  · have h2 : 2 ^ p + 1 ≤ z.natAbs := hlt
    have h3 : (2 ^ p + 1) * (2 ^ p + 1) ≤ z.natAbs * z.natAbs := Nat.mul_le_mul h2 h2
    have h4 : (2 ^ p + 1) * ((2 : ℕ) ^ p + 1) = 2 ^ (2 * p) + 2 * 2 ^ p + 1 := by
      rw [← hpp]
      ring
    rw [h4] at h3
    linarith

/-! ### Claim C7: the division invariant -/

/-- C7: for valid inputs (`n ≥ 0`, `digits ≥ 1`) on the general
(non-square) path, the integer division `d_new = (n - m_new^2) / d`
divides evenly in every round: `d * d_new` recovers `n - m_new^2` exactly,
so the flooring division of the source never truncates.  (The source has
no failure branch for a non-even division; since the division is always
even on the reachable states, that branch of the claim is vacuous.) -/
theorem C7_division_exact (n : ℤ) (dig : ℕ) (hn : 0 ≤ n) (hdig : 1 ≤ dig)
    (hnsq : ∀ z : ℤ, z * z ≠ n) (k : ℕ) :
    (cfState n (isqrtLin n.toNat : ℤ) k).2 *
        (cfState n (isqrtLin n.toNat : ℤ) (k+1)).2 =
      n - ((cfState n (isqrtLin n.toNat : ℤ) (k+1)).1) ^ 2 := by
  obtain ⟨ha0, ha1, ha2⟩ := a0_facts hn hnsq
  exact cf_division_exact ha0 ha1 ha2 k

/-- Witness for C7 at `n = 2`, `digits = 1`, first round. -/
theorem C7_division_exact_witness :
    ((0 : ℤ) ≤ 2) ∧ (1 ≤ 1) ∧ (∀ z : ℤ, z * z ≠ 2) ∧
      ((cfState 2 (isqrtLin (2 : ℤ).toNat : ℤ) 0).2 *
          (cfState 2 (isqrtLin (2 : ℤ).toNat : ℤ) 1).2 =
        2 - ((cfState 2 (isqrtLin (2 : ℤ).toNat : ℤ) 1).1) ^ 2) :=
  ⟨by omega, by omega, not_sq_two,
    C7_division_exact 2 1 (by omega) (by omega) not_sq_two 0⟩

/-! ### The convergent fold computes continuants -/

/-- The Python `gcd(u, 1)` is 1. -/
theorem pygcd_one_right (u : ℤ) : pygcd u 1 = 1 := by
  rw [pygcd_rec]
  simp [Int.fmod_one, pygcd_rec]

/-- The Python `lcm(u, 1)` is `u` for positive `u`. -/
theorem pylcm_one_right {u : ℤ} (hu : 0 < u) : pylcm u 1 = u := by
  unfold pylcm
  rw [pygcd_one_right, mul_one, Int.fdiv_one, abs_of_pos hu]

/-- One fold step `c.rec(); c += Ratio(x)` on a positive-denominator state
`(num, den) = (u, v)` yields exactly `(x*u + v, u)`: the divisions inside
`__add__` are exact. -/
theorem foldStep_pos {u v : ℤ} (hu : 0 < u) (x : ℤ) :
    foldStep ⟨u, v⟩ x = ⟨x * u + v, u⟩ := by
  unfold foldStep Frac.recip Frac.add
  simp only [pylcm_one_right hu]
  rw [Int.mul_fdiv_cancel v (ne_of_gt hu), Int.fdiv_one]
  rw [Frac.mk.injEq]
  constructor
  · ring
  · rfl

/-- The full fold equals the bare pair recursion `kfoldN`/`kfoldD` when the
running numerator and denominator stay positive. -/
theorem convFold_pair : ∀ (t : List ℤ) (u v : ℤ), 0 < u → 0 < v →
    (∀ x ∈ t, 1 ≤ x) → convFold ⟨u, v⟩ t = ⟨kfoldN t u v, kfoldD t u v⟩ := by
  intro t
  induction t with
  | nil => intro u v hu hv hmem; rfl
  | cons x t ih =>
    intro u v hu hv hmem
    have hx : 1 ≤ x := hmem x (List.mem_cons_self x t)
    have hstep : convFold ⟨u, v⟩ (x :: t) = convFold ⟨x * u + v, u⟩ t := by
      show convFold (foldStep ⟨u, v⟩ x) t = _
      rw [foldStep_pos hu]
    rw [hstep, ih (x * u + v) u (by nlinarith) hu
      (fun y hy => hmem y (List.mem_cons_of_mem x hy))]
    rfl

/-- Unfolding of the numerator recurrence at `k + 2`. -/
theorem psSeq_succ_succ (n a0 : ℤ) (k : ℕ) :
    psSeq n a0 (k+2) = aSeq n a0 (k+1) * psSeq n a0 (k+1) + psSeq n a0 k := rfl

/-- Unfolding of the denominator recurrence at `k + 2`. -/
theorem qsSeq_succ_succ (n a0 : ℤ) (k : ℕ) :
    qsSeq n a0 (k+2) = aSeq n a0 (k+1) * qsSeq n a0 (k+1) + qsSeq n a0 k := rfl

/-- Folding the partial-quotient list of round `k` from seeds `(u, v)`
yields the continuant combination of the convergent numerators and
denominators. -/
theorem kfold_rl (n a0 : ℤ) : ∀ (k : ℕ) (u v : ℤ),
    kfoldN (rlSeq n a0 k) u v = u * psSeq n a0 (k+1) + v * psSeq n a0 k ∧
    kfoldD (rlSeq n a0 k) u v = u * qsSeq n a0 (k+1) + v * qsSeq n a0 k := by
  intro k
  induction k with
  | zero =>
    intro u v
    constructor
    · show kfoldN [a0] u v = u * a0 + v * 1
      show a0 * u + v = u * a0 + v * 1
      ring
    · show kfoldD [a0] u v = u * 1 + v * 0
      show u = u * 1 + v * 0
      ring
  | succ k ih =>
    intro u v
    have h1 : kfoldN (rlSeq n a0 (k+1)) u v =
        kfoldN (rlSeq n a0 k) (aSeq n a0 (k+1) * u + v) u := rfl
    have h2 : kfoldD (rlSeq n a0 (k+1)) u v =
        kfoldD (rlSeq n a0 k) (aSeq n a0 (k+1) * u + v) u := rfl
    constructor
    · rw [h1, (ih _ _).1, psSeq_succ_succ]
      ring
    · rw [h2, (ih _ _).2, qsSeq_succ_succ]
      ring

/-- The partial quotient at round 0 is the seed `a0`. -/
theorem aSeq_zero (n a0 : ℤ) : aSeq n a0 0 = a0 := by
  show (a0 + (0:ℤ)).fdiv 1 = a0
  rw [add_zero, Int.fdiv_one]

/-- The head of the partial-quotient list is the source's `a[-1]`. -/
theorem rlSeq_headI (n a0 : ℤ) (k : ℕ) : (rlSeq n a0 k).headI = aSeq n a0 k := by
  cases k with
  | zero => exact (aSeq_zero n a0).symm
  | succ k => rfl

/-- Every appended partial quotient is at least 1 (seed bracketing
hypotheses as in `Rinv_step`). -/
theorem aSeq_pos {n a0 : ℤ} (ha0 : 1 ≤ a0) (ha1 : a0 ^ 2 < n)
    (ha2 : n < (a0 + 1) ^ 2) : ∀ k, 1 ≤ aSeq n a0 k := by
  intro k
  cases k with
  | zero => rw [aSeq_zero]; exact ha0
  | succ k =>
    exact (Rinv_step ha0 ha1 ha2 (cfState_inv ha0 ha1 ha2 (k+1) (by omega))).2.1

/-- All entries of the partial-quotient list are at least 1. -/
theorem rlSeq_pos {n a0 : ℤ} (ha0 : 1 ≤ a0) (ha1 : a0 ^ 2 < n)
    (ha2 : n < (a0 + 1) ^ 2) : ∀ k x, x ∈ rlSeq n a0 k → 1 ≤ x := by
  intro k
  induction k with
  | zero =>
    intro x hx
    have : x = a0 := by simpa [rlSeq] using hx
    omega
  | succ k ih =>
    intro x hx
    rcases List.mem_cons.mp hx with h | h
    · rw [h]; exact aSeq_pos ha0 ha1 ha2 (k+1)
    · exact ih x h

/-- The `Ratio` computed by the source's convergent fold at round `k` is
exactly the pair of convergent continuants. -/
theorem conv_rl_eq {n a0 : ℤ} (ha0 : 1 ≤ a0) (ha1 : a0 ^ 2 < n)
    (ha2 : n < (a0 + 1) ^ 2) (k : ℕ) :
    convergent (rlSeq n a0 k) = ⟨psSeq n a0 (k+1), qsSeq n a0 (k+1)⟩ := by
  cases k with
  | zero =>
    show convFold ⟨(rlSeq n a0 0).headI, 1⟩ [] = _
    rw [rlSeq_headI, aSeq_zero]
    rfl
  | succ k =>
    have hh : convergent (rlSeq n a0 (k+1)) =
        convFold ⟨aSeq n a0 (k+1), 1⟩ (rlSeq n a0 k) := rfl
    rw [hh, convFold_pair (rlSeq n a0 k) _ 1
      (by linarith [aSeq_pos ha0 ha1 ha2 (k+1)]) one_pos (rlSeq_pos ha0 ha1 ha2 k)]
    rw [Frac.mk.injEq]
    constructor
    · rw [(kfold_rl n a0 k _ _).1, psSeq_succ_succ]
      ring
    · rw [(kfold_rl n a0 k _ _).2, qsSeq_succ_succ]
      ring

/-- Determinant identity for successive convergents. -/
theorem cf_det (n a0 : ℤ) : ∀ k,
    psSeq n a0 (k+1) * qsSeq n a0 k - psSeq n a0 k * qsSeq n a0 (k+1) =
      (-1) ^ (k+1) := by
  intro k
  induction k with
  | zero =>
    show a0 * 0 - 1 * 1 = (-1 : ℤ) ^ 1
    norm_num
  | succ k ih =>
    rw [psSeq_succ_succ, qsSeq_succ_succ]
    have hexp : ((-1 : ℤ)) ^ (k + 2) = -((-1 : ℤ) ^ (k+1)) := by
      rw [pow_succ]
      ring
    rw [hexp]
    linear_combination (-1 : ℤ) * ih

/-- Positivity and linear growth of the convergent denominators: the
denominator of the `j`-th convergent is at least `max 1 j`. -/
theorem qsSeq_bounds {n a0 : ℤ} (ha0 : 1 ≤ a0) (ha1 : a0 ^ 2 < n)
    (ha2 : n < (a0 + 1) ^ 2) : ∀ j : ℕ,
    1 ≤ qsSeq n a0 (j+1) ∧ (j : ℤ) ≤ qsSeq n a0 (j+1) := by
  intro j
  induction j using Nat.strong_induction_on with
  | _ j ih =>
    rcases j with _ | _ | j
    · constructor
      · show (1:ℤ) ≤ 1
        omega
      · show ((0:ℕ) : ℤ) ≤ 1
        simp
    · have ha := aSeq_pos ha0 ha1 ha2 1
      constructor
      · show 1 ≤ aSeq n a0 1 * 1 + 0
        linarith
      · show ((1:ℕ) : ℤ) ≤ aSeq n a0 1 * 1 + 0
        push_cast
        linarith
    · have h1 := ih (j+1) (by omega)
      have h2 := ih j (by omega)
      have ha := aSeq_pos ha0 ha1 ha2 (j+2)
      have hmul : qsSeq n a0 (j+2) ≤ aSeq n a0 (j+2) * qsSeq n a0 (j+2) :=
        le_mul_of_one_le_left (by linarith [h1.1]) ha
      have hrec : qsSeq n a0 (j+3) =
          aSeq n a0 (j+2) * qsSeq n a0 (j+2) + qsSeq n a0 (j+1) :=
        qsSeq_succ_succ n a0 (j+1)
      constructor
      · rw [hrec]
        linarith [h1.1, h2.1]
      · rw [hrec]
        push_cast
        push_cast at h1
        linarith [h1.2, h2.1]

/-- The source's termination test at round `k+1` — comparing the freshly
computed convergent with the snapshot of the previous one through
`abs(c - pc) < Ratio(1, T10)` — holds exactly when
`T10 < q_{k+1} * q_{k+2}`, the product of the convergent denominators. -/
theorem cond_iff {n a0 : ℤ} (ha0 : 1 ≤ a0) (ha1 : a0 ^ 2 < n)
    (ha2 : n < (a0 + 1) ^ 2) {T10 : ℤ} (hT : 0 < T10) (k : ℕ) :
    (((convergent (rlSeq n a0 (k+1))).sub (convergent (rlSeq n a0 k))).abs.blt
        ⟨1, T10⟩ = true) ↔ T10 < qsSeq n a0 (k+1) * qsSeq n a0 (k+2) := by
  have hq1 : 0 < qsSeq n a0 (k+1) := by linarith [(qsSeq_bounds ha0 ha1 ha2 k).1]
  have hq2 : 0 < qsSeq n a0 (k+2) := by linarith [(qsSeq_bounds ha0 ha1 ha2 (k+1)).1]
  rw [conv_rl_eq ha0 ha1 ha2 (k+1), conv_rl_eq ha0 ha1 ha2 k]
  set P1 := psSeq n a0 (k+1) with hP1
  set P2 := psSeq n a0 (k+2) with hP2
  set Q1 := qsSeq n a0 (k+1) with hQ1
  set Q2 := qsSeq n a0 (k+2) with hQ2
  have hlne : pylcm Q2 Q1 ≠ 0 := (pylcm_spec (ne_of_gt hq2) (ne_of_gt hq1)).2.2.1
  have habsden : (((⟨P2, Q2⟩ : Frac).sub ⟨P1, Q1⟩).abs).den ≠ 0 := by
    rw [Frac.abs_den, Frac.sub_den]
    simpa using hlne
  rw [Frac.blt_val habsden (show (0:ℤ) < (Frac.mk 1 T10).den from hT)]
  rw [Frac.abs_val, Frac.sub_val (ne_of_gt hq2) (ne_of_gt hq1)]
  have hq1Q : ((Q1 : ℤ) : ℚ) ≠ 0 := Int.cast_ne_zero.mpr (ne_of_gt hq1)
  have hq2Q : ((Q2 : ℤ) : ℚ) ≠ 0 := Int.cast_ne_zero.mpr (ne_of_gt hq2)
  have hdet := cf_det n a0 (k+1)
  have hvals : (Frac.mk P2 Q2).val - (Frac.mk P1 Q1).val
      = ((-1 : ℚ) ^ (k+2)) / ((Q1 : ℚ) * (Q2 : ℚ)) := by
    rw [Frac.val, Frac.val]
    rw [div_sub_div _ _ hq2Q hq1Q]
    have hc : ((P2 * Q1 - P1 * Q2 : ℤ) : ℚ) = (((-1 : ℤ) ^ (k+2) : ℤ) : ℚ) :=
      congrArg (fun z : ℤ => (z : ℚ)) hdet
    push_cast at hc
    rw [show ((P2 : ℚ) * Q1 - (Q2 : ℚ) * P1) = ((P2 : ℚ) * Q1 - (P1 : ℚ) * Q2) by ring,
      hc, mul_comm ((Q2 : ℚ)) ((Q1 : ℚ))]
  rw [hvals, abs_div, abs_pow, abs_neg, abs_one, one_pow]
  have habsQ : |(Q1 : ℚ) * (Q2 : ℚ)| = (Q1 : ℚ) * (Q2 : ℚ) := by
    apply abs_of_pos
    have c1 : (0:ℚ) < (Q1 : ℚ) := by exact_mod_cast hq1
    have c2 : (0:ℚ) < (Q2 : ℚ) := by exact_mod_cast hq2
    exact mul_pos c1 c2
  rw [habsQ]
  have hvalT : (Frac.mk 1 T10).val = 1 / (T10 : ℚ) := by
    rw [Frac.val]
    norm_num
  rw [hvalT]
  have hQQpos : (0:ℚ) < (Q1 : ℚ) * (Q2 : ℚ) := by
    have c1 : (0:ℚ) < (Q1 : ℚ) := by exact_mod_cast hq1
    have c2 : (0:ℚ) < (Q2 : ℚ) := by exact_mod_cast hq2
    exact mul_pos c1 c2
  have hTQ : (0:ℚ) < (T10 : ℚ) := by exact_mod_cast hT
  rw [div_lt_div_iff₀ hQQpos hTQ, one_mul, one_mul]
  constructor
  · intro h
    exact_mod_cast h
  · intro h
    exact_mod_cast h

/-- One round of the loop from the round-`k` state with the previous
convergent saved: either the tolerance test fires and the loop returns the
fresh convergent, or it recurses on the round-`k+1` state. -/
theorem loop_round (n a0 T10 : ℤ) (f k : ℕ) :
    loopGo n a0 T10 (f+1) (cfState n a0 k).1 (cfState n a0 k).2 (rlSeq n a0 k)
        (some (convergent (rlSeq n a0 k))) =
      if ((convergent (rlSeq n a0 (k+1))).sub (convergent (rlSeq n a0 k))).abs.blt
          ⟨1, T10⟩
      then some (convergent (rlSeq n a0 (k+1)))
      else loopGo n a0 T10 f (cfState n a0 (k+1)).1 (cfState n a0 (k+1)).2
        (rlSeq n a0 (k+1)) (some (convergent (rlSeq n a0 (k+1)))) := by
  rw [loopGo]
  rw [rlSeq_headI]
  rfl

/-- The first round of the loop: from `(m, d) = (0, 1)`, `a = [a0]` and no
previous convergent, the loop always proceeds to the round-1 state with
the first convergent saved. -/
theorem loop_start (n a0 T10 : ℤ) (F : ℕ) :
    loopGo n a0 T10 (F+1) 0 1 [a0] none =
      loopGo n a0 T10 F (cfState n a0 1).1 (cfState n a0 1).2 (rlSeq n a0 1)
        (some (convergent (rlSeq n a0 1))) := by
  rw [loopGo]
  have h1 : (1 : ℤ) * ([a0] : List ℤ).headI - 0 = (cfState n a0 1).1 := by
    rw [cfState_one]
    show 1 * a0 - 0 = a0
    ring
  have h2 : (cfState n a0 1).1 = a0 := by rw [cfState_one]
  have h3 : (cfState n a0 1).2 = n - a0 ^ 2 := by rw [cfState_one]
  have h4 : rlSeq n a0 1 = aSeq n a0 1 :: [a0] := rfl
  have h5 : aSeq n a0 1 = (a0 + a0).fdiv (n - a0 ^ 2) := by
    show (a0 + (cfState n a0 1).1).fdiv (cfState n a0 1).2 = _
    rw [h2, h3]
  simp only [List.headI, one_mul, sub_zero, h4, h5, h2, h3, Int.fdiv_one]

/-- Fuelled termination: from any round `k ≥ 1`, once `k + f` passes
`T10.toNat + 1` the loop with fuel `f + 1` cannot run out, because the
convergent denominators grow at least linearly and the tolerance test must
fire. -/
theorem loop_term_aux {n a0 : ℤ} (ha0 : 1 ≤ a0) (ha1 : a0 ^ 2 < n)
    (ha2 : n < (a0 + 1) ^ 2) {T10 : ℤ} (hT : 0 < T10) :
    ∀ (f k : ℕ), 1 ≤ k → T10.toNat + 1 ≤ k + f →
      loopGo n a0 T10 (f+1) (cfState n a0 k).1 (cfState n a0 k).2 (rlSeq n a0 k)
        (some (convergent (rlSeq n a0 k))) ≠ none := by
  have hcond : ∀ k : ℕ, T10.toNat + 1 ≤ k →
      T10 < qsSeq n a0 (k+1) * qsSeq n a0 (k+2) := by
    intro k hk
    have h1 := (qsSeq_bounds ha0 ha1 ha2 k).2
    have h2 := (qsSeq_bounds ha0 ha1 ha2 (k+1)).1
    have h3 : 0 < qsSeq n a0 (k+1) := by
      linarith [(qsSeq_bounds ha0 ha1 ha2 k).1]
    have h4 : qsSeq n a0 (k+1) * 1 ≤ qsSeq n a0 (k+1) * qsSeq n a0 (k+2) :=
      mul_le_mul_of_nonneg_left h2 (by linarith)
    have h5 : (T10 : ℤ) < (k : ℤ) := by
      have := Int.toNat_of_nonneg (le_of_lt hT)
      omega
    linarith
  intro f
  induction f with
  | zero =>
    intro k hk hkf
    rw [loop_round]
    rw [if_pos ((cond_iff ha0 ha1 ha2 hT k).mpr (hcond k (by omega)))]
    simp
  | succ f ih =>
    intro k hk hkf
    rw [loop_round]
    by_cases hc : ((convergent (rlSeq n a0 (k+1))).sub
        (convergent (rlSeq n a0 k))).abs.blt ⟨1, T10⟩ = true
    · rw [if_pos hc]
      simp
    · simp only [Bool.not_eq_true] at hc
      rw [if_neg (by simp [hc])]
      exact ih (k+1) (by omega) (by omega)

/-! ### Termination of the iteration loop under the exact seeding -/

/-- The intended behaviour behind claim C4, proved for the exact seeding
the spec prescribes (`precSqrt`): for every non-negative non-square `n`
and every `digits ≥ 1`, the iteration loop terminates after finitely many
rounds — with enough fuel the model returns a string, the loop being
exited solely by the tolerance test `abs(c - pc) < 1/10^(digits+1)` (the
only exit the loop has).  The source's float seeding breaks the universal
statement for huge `n`; the claim-C4 theorem at the end of the file
exhibits that. -/
theorem exactSeed_loop_terminates (n : ℤ) (dig : ℕ) (hn : 0 ≤ n) (hdig : 1 ≤ dig)
    (hnsq : ∀ z : ℤ, z * z ≠ n) :
    ∃ (fuel : ℕ) (s : String), precSqrt n dig fuel = some (Except.ok s) := by
  obtain ⟨ha0, ha1, ha2⟩ := a0_facts hn hnsq
  have hT : 0 < tenPow (dig + 1) := pow_pos (by omega) (dig + 1)
  set T10 := tenPow (dig + 1) with hT10
  set a0 := (isqrtLin n.toNat : ℤ) with ha0def
  have hterm := loop_term_aux ha0 ha1 ha2 hT (T10.toNat) 1 (by omega) (by omega)
  have hstart := loop_start n a0 T10 (T10.toNat + 1)
  have hne : loopGo n a0 T10 (T10.toNat + 2) 0 1 [a0] none ≠ none := by
    rw [show T10.toNat + 2 = (T10.toNat + 1) + 1 by omega, hstart]
    exact hterm
  rcases hloop : loopGo n a0 T10 (T10.toNat + 2) 0 1 [a0] none with _ | c
  · exact absurd hloop hne
  · refine ⟨T10.toNat + 2, renderDec c dig, ?_⟩
    unfold precSqrt
    rw [if_neg (by omega)]
    rw [if_neg (by
      intro hsq
      exact hnsq a0 hsq)]
    rw [← ha0def, ← hT10, hloop]

/-- The exact-seed loop termination at `n = 2`, `digits = 1`. -/
theorem exactSeed_loop_terminates_check :
    ((0 : ℤ) ≤ 2) ∧ (1 ≤ 1) ∧ (∀ z : ℤ, z * z ≠ 2) ∧
      ∃ (fuel : ℕ) (s : String), precSqrt 2 1 fuel = some (Except.ok s) :=
  ⟨by omega, by omega, not_sq_two, exactSeed_loop_terminates 2 1 (by omega) (by omega) not_sq_two⟩

/-! ### Claim C10: the snapshot survives the in-place folding -/

/-- Reading an address below the original length is unaffected by a `set`
at a different address. -/
theorem hget_set_ne (h : Heap) (i j : ℕ) (v : ℤ × ℤ) (hij : i ≠ j) :
    hget (h.set i v) j = hget h j := by
  unfold hget
  simp [List.getD_eq_getElem?_getD, List.getElem?_set_ne hij]

/-- Reading an address below the original length is unaffected by an
append. -/
theorem hget_append (h : Heap) (l : Heap) (j : ℕ) (hj : j < h.length) :
    hget (h ++ l) j = hget h j := List.getD_append h l _ j hj

/-- Frame property of the heap-model convergent fold: the fold mutates (by
`rec`) only the cell `c` currently points at and allocates fresh cells for
each `+=` result, so every pre-existing cell other than the initial `c`
cell keeps its contents. -/
theorem convFoldH_frame : ∀ (l : List ℤ) (h : Heap) (ca : ℕ), ca < h.length →
    ∀ a, a < h.length → a ≠ ca → hget (convFoldH h ca l).1 a = hget h a := by
  intro l
  induction l with
  | nil => intro h ca hca a ha hne; rfl
  | cons x t ih =>
    intro h ca hca a ha hne
    have hstep : convFoldH h ca (x :: t) =
        convFoldH (foldStepH h ca x).1 (foldStepH h ca x).2 t := rfl
    rw [hstep]
    have hlen1 : ((h.set ca ((hget h ca).2, (hget h ca).1)) : Heap).length = h.length :=
      List.length_set h ca _
    have hfst : (foldStepH h ca x).1 =
        (h.set ca ((hget h ca).2, (hget h ca).1)) ++
          [addVals (hget (h.set ca ((hget h ca).2, (hget h ca).1)) ca) (x, 1)] := rfl
    have hsnd : (foldStepH h ca x).2 =
        ((h.set ca ((hget h ca).2, (hget h ca).1)) : Heap).length := rfl
    have hlen2 : h.length ≤ (foldStepH h ca x).1.length := by
      rw [hfst]
      simp [hlen1]
    have hca2 : (foldStepH h ca x).2 < (foldStepH h ca x).1.length := by
      rw [hfst, hsnd]
      simp
    have hrec := ih (foldStepH h ca x).1 (foldStepH h ca x).2 hca2 a
      (by omega) (by rw [hsnd, hlen1]; omega)
    rw [hrec, hfst, hget_append _ _ a (by rw [hlen1]; omega), hget_set_ne _ _ _ _ hne.symm]

/-- C10: in the object-identity model of the source, the previous
convergent snapshot (`pc = Ratio(0); pc.num = c.num; pc.den = c.den`) is a
separate object allocated before the round's `c`; the convergent folding
of a round — which mutates `c` in place through `rec` and rebinds `c` to
freshly allocated results of `+=` — leaves the numerator and denominator
stored at `pc`'s address unchanged, so the tolerance comparison reads the
previous round's exact value.  Here `h` is any heap containing `pc` at
address `pcA`, and the round's `c = Ratio(a[-1])` is allocated fresh at
address `h.length`. -/
theorem C10_snapshot_preserved (h : Heap) (pcA : ℕ) (rl : List ℤ)
    (cInit : ℤ × ℤ) (hpc : pcA < h.length) :
    hget (convFoldH (h ++ [cInit]) h.length rl).1 pcA = hget h pcA := by
  have h1 := convFoldH_frame rl (h ++ [cInit]) h.length (by simp)
    pcA (by simp; omega) (by omega)
  rw [h1]
  exact hget_append h [cInit] pcA hpc

/-- Witness for C10: a concrete heap with `pc = 3/2` at address 0, `c`
allocated at address 1, one fold step. -/
theorem C10_snapshot_preserved_witness :
    (0 < ([((3:ℤ), (2:ℤ))] : Heap).length) ∧
      hget (convFoldH ([((3:ℤ), (2:ℤ))] ++ [((2:ℤ), (1:ℤ))]) 1 [2]).1 0 =
        hget [((3:ℤ), (2:ℤ))] 0 :=
  ⟨by decide, C10_snapshot_preserved [((3:ℤ), (2:ℤ))] 0 [2] ((2:ℤ), (1:ℤ)) (by decide)⟩

/-! ### Claim C1: the float seeding returns a wrong root -/

set_option maxRecDepth 20000 in
set_option maxHeartbeats 1000000 in
/-- C1 is broken by the source's float seeding: the perfect square
`n = (2^53 + 1)^2 = 81129638414606699710187514626049` has exact root
`2^53 + 1 = 9007199254740993`, but `float(n)` rounds `n` to
`2^106 + 2^54`, whose correctly rounded double square root is exactly
`2^53`; the integral fast path fires and the program returns
`"9007199254740992"` — the wrong root.  (The spec prescribes an exact
integer square root for the seeding; `exactSeed_perfect_square` proves
the claimed behaviour under it.) -/
theorem C1_float_seed_wrong_root :
    precSqrtF (((2 ^ 53 + 1) * (2 ^ 53 + 1) : ℤ)) 5 0
        = some (Except.ok "9007199254740992") ∧
      toString ((2 : ℤ) ^ 53 + 1) = "9007199254740993" ∧
      ("9007199254740992" : String) ≠ "9007199254740993" :=
  ⟨by rfl, by rfl, by decide⟩

/-! ### Claim C4: the float seeding bypasses or aborts the loop -/

set_option maxRecDepth 20000 in
set_option maxHeartbeats 1000000 in
/-- C4 is broken by the source's float seeding: at the non-square
`n = 2^1024 + 1` the seeding `sqrt(n)` raises `OverflowError` (`float(n)`
rounds up to `2^1024`, beyond the double range), so the loop never runs;
and at the non-square `n = 2^52 + 1` the correctly rounded double square
root is exactly `2^26`, so the integral fast path returns `"67108864"`
without entering the loop.  In neither case is the loop exited by the
tolerance check.  (Under the exact seeding the spec prescribes, the loop
does terminate through the tolerance check for every non-square radicand:
`exactSeed_loop_terminates`.) -/
theorem C4_float_seed_no_loop :
    (∀ z : ℤ, z * z ≠ 2 ^ 1024 + 1) ∧
      precSqrtF ((2 : ℤ) ^ 1024 + 1) 5 0 = some (Except.error PyErr.overflowError) ∧
      (∀ z : ℤ, z * z ≠ 2 ^ 52 + 1) ∧
      precSqrtF ((2 : ℤ) ^ 52 + 1) 5 0 = some (Except.ok "67108864") := by
  have hc : ((2 : ℤ) ^ 1024 + 1) = ((2 ^ 1024 + 1 : ℕ) : ℤ) := by
    push_cast
    ring
  refine ⟨?_, ?_, ?_, by rfl⟩
  · have h := not_sq_two_pow 512
    have e : 2 * 512 = 1024 := by norm_num
    rw [e] at h
    exact h
  · rw [hc]
    rfl
  · have h := not_sq_two_pow 26
    have e : 2 * 26 = 52 := by norm_num
    rw [e] at h
    exact h
